import Mathlib

/- Verification of the MKF-ECG signal pipeline (src/script.js).

   Modelling conventions for the shallow embedding:
   * JS numbers are modelled as exact rationals (ℚ); array indices as ℕ/ℤ.
   * `Math.round x` is `⌊x + 1/2⌋`, which is Mathlib's `round` on ℚ.
   * `Math.sin`, `Math.cos` and `Math.sqrt` are transcendental/irrational and
     have no computable exact counterpart on ℚ, so they are passed as abstract
     function parameters; theorems that need facts about them (oddness of sin,
     the reflection rule for cos, `sqrt 0 = 0`) take those facts as hypotheses,
     which hold for the real functions the source calls.
   * Out-of-range JS array reads return `undefined`; every read in the source
     is guarded except in degenerate geometries, and the embedding uses
     `List.getD _ 0` (read with default 0) in their place.
   * Findings pushed as formatted strings by `interpretFindings` are modelled
     as a structured `Finding` datatype; the format strings are presentation. -/

/-- Math.round: rounds half toward positive infinity; on ℚ this is `⌊x + 1/2⌋`,
exactly Mathlib's `round`. -/
def jsRound (x : ℚ) : ℤ := round x

/-- Bitwise `m | 1` on integers (sets the lowest bit), as used in the
tap-count default `Math.round(fs*0.2)|1` of `preprocessAndDetect`. -/
def jsOr1 (m : ℤ) : ℤ := if m % 2 = 0 then m + 1 else m

/-- `Math.max(...l)` over a nonempty list of numbers. -/
def maxOf (l : List ℚ) : ℚ := l.foldl max (l.headD 0)

/-- Direct convolution, from `convolve(signal, kernel)` (src/script.js:16-29):
`out[i] = Σ_j signal[i - j + kHalf] * kernel[j]`, reads outside `[0, n)`
contribute nothing, `kHalf = ⌊m/2⌋`. -/
def convolve (signal kernel : List ℚ) : List ℚ :=
  (List.range signal.length).map (fun (i : ℕ) =>
    (List.range kernel.length).foldl (fun s (j : ℕ) =>
      let idx : ℤ := (i : ℤ) - (j : ℤ) + (kernel.length / 2 : ℕ)
      if 0 ≤ idx ∧ idx < (signal.length : ℤ) then
        s + signal.getD idx.toNat 0 * kernel.getD j 0
      else s) 0)

/-- Coefficient `h[n]` of the windowed-sinc band-pass design, for a kernel of
(already odd) length `N`: the body of the loop of `firBandpass`
(src/script.js:38-47).  `sin x` / `cos x` stand for `Math.sin x` / `Math.cos x`
and `pi` for `Math.PI`. -/
def firCoef (sin cos : ℚ → ℚ) (pi lowcut highcut fs : ℚ) (N : ℕ) (n : ℕ) : ℚ :=
  let fc1 := lowcut / fs
  let fc2 := highcut / fs
  let M : ℤ := ((N : ℤ) - 1) / 2
  let k : ℤ := (n : ℤ) - M
  (if k = 0 then 2 * (fc2 - fc1)
   else (sin (2 * pi * fc2 * (k : ℚ)) - sin (2 * pi * fc1 * (k : ℚ))) / (pi * (k : ℚ))) *
    (0.54 - 0.46 * cos (2 * pi * (n : ℚ) / ((N : ℚ) - 1)))

/-- FIR band-pass design, from `firBandpass(lowcut, highcut, fs, N)`
(src/script.js:32-49).  An even requested tap count is incremented to odd. -/
def firBandpass (sin cos : ℚ → ℚ) (pi lowcut highcut fs : ℚ) (N0 : ℕ) : List ℚ :=
  let N := if N0 % 2 = 0 then N0 + 1 else N0
  (List.range N).map (firCoef sin cos pi lowcut highcut fs N)

/-- Causal moving average with growing window, from `movingAverage(arr, win)`
(src/script.js:52-61): running sum, subtracting `arr[i-win]` once `i ≥ win`,
divisor `min(i+1, win)`. -/
def movingAverage (arr : List ℚ) (win : ℕ) : List ℚ :=
  ((List.range arr.length).foldl (fun (acc : List ℚ × ℚ) i =>
      let s1 := acc.2 + arr.getD i 0
      let s2 := if win ≤ i then s1 - arr.getD (i - win) 0 else s1
      (acc.1 ++ [s2 / min ((i : ℚ) + 1) (win : ℚ)], s2))
    ([], 0)).1

/-- Population standard deviation, from `std(arr)` (src/script.js:64-70);
`sqrt` stands for `Math.sqrt`. -/
def std (sqrt : ℚ → ℚ) (arr : List ℚ) : ℚ :=
  if arr.length = 0 then 0
  else
    let mean := arr.foldl (· + ·) 0 / (arr.length : ℚ)
    sqrt ((arr.foldl (fun a b => a + (b - mean) * (b - mean)) 0) / (arr.length : ℚ))

/-- The local-maxima scan of `detectPeaksAdaptive` (src/script.js:123-129):
indices `i` with `2 ≤ i < N-2` whose envelope value strictly exceeds both
neighbours, in increasing order. -/
def localPeaksOf (integrated : List ℚ) : List ℕ :=
  (List.range integrated.length).filter (fun i =>
    decide (2 ≤ i ∧ i + 2 < integrated.length ∧
      integrated.getD (i - 1) 0 < integrated.getD i 0 ∧
      integrated.getD (i + 1) 0 < integrated.getD i 0))

/-- The R-position refinement loop of `detectPeaksAdaptive`
(src/script.js:151-155): scan `filtered[j]` for `j` from `start+1` to `fin`,
keeping the index of the (leftmost) strictly largest value, seeded with
`(start, filtered[start])`. -/
def refinePeak (filtered : List ℚ) (start fin : ℤ) : ℤ :=
  ((List.range (fin - start).toNat).foldl (fun (st : ℤ × ℚ) (t : ℕ) =>
      let j := start + 1 + (t : ℤ)
      let fj := filtered.getD j.toNat 0
      if st.2 < fj then (j, fj) else st)
    (start, filtered.getD start.toNat 0)).1

/-- The mutable scan state of `detectPeaksAdaptive` (src/script.js:136-165):
`qrs` is `qrsCandidates`, `lastQRS`, `spki`/`npki` are SPKI/NPKI and `thresh`
is `threshI1`.  The extra `raw` field records the history of raw accepted
candidate indices; the source keeps only its last element (`lastQRS`), and
`raw` never feeds back into the computation. -/
structure DetectState where
  qrs : List ℤ
  raw : List ℤ
  lastQRS : ℤ
  spki : ℚ
  npki : ℚ
  thresh : ℚ

/-- One step of the adaptive scan, the body of the `for (const idx of
localPeaks)` loop of `detectPeaksAdaptive` (src/script.js:144-165). -/
def detectStep (integrated filtered : List ℚ) (fs : ℚ) (st : DetectState) (idx : ℕ) :
    DetectState :=
  let val := integrated.getD idx 0
  let st1 :=
    if st.thresh < val ∧ jsRound (0.25 * fs) < (idx : ℤ) - st.lastQRS then
      let searchHalf := jsRound (0.05 * fs)
      let start := max 0 ((idx : ℤ) - searchHalf)
      let fin := min ((filtered.length : ℤ) - 1) ((idx : ℤ) + searchHalf)
      { qrs := st.qrs ++ [refinePeak filtered start fin],
        raw := st.raw ++ [(idx : ℤ)],
        lastQRS := (idx : ℤ),
        spki := 0.125 * val + 0.875 * st.spki,
        npki := st.npki,
        thresh := st.thresh }
    else
      { st with npki := 0.125 * val + 0.875 * st.npki }
  { st1 with thresh := st1.npki + 0.25 * (st1.spki - st1.npki) }

/-- Threshold seeding of `detectPeaksAdaptive` (src/script.js:133-141):
SPKI from envelope values at local maxima of the first `min(N, round(fs*2))`
samples, else `0.3 * max(envelope)`; `NPKI = 0.02*SPKI`;
`threshI1 = NPKI + 0.25*(SPKI - NPKI)`; `lastQRS = -9999`. -/
def detectInit (integrated : List ℚ) (fs : ℚ) : DetectState :=
  let seedPeaks := (localPeaksOf integrated).filter (fun (p : ℕ) =>
    decide ((p : ℤ) < min ((integrated.length : ℤ)) (jsRound (fs * 2))))
  let spki0 : ℚ :=
    if seedPeaks.length ≠ 0 then
      seedPeaks.foldl (fun a b => a + integrated.getD b 0) 0 / (seedPeaks.length : ℚ)
    else maxOf integrated * 0.3
  let npki0 := 0.02 * spki0
  { qrs := [], raw := [], lastQRS := -9999, spki := spki0, npki := npki0,
    thresh := npki0 + 0.25 * (spki0 - npki0) }

/-- The state after scanning all local maxima (src/script.js:144-165). -/
def detectFoldFinal (integrated filtered : List ℚ) (fs : ℚ) : DetectState :=
  (localPeaksOf integrated).foldl (detectStep integrated filtered fs)
    (detectInit integrated fs)

/-- The raw accepted candidate indices (the successive values taken by
`lastQRS`), before refinement and deduplication. -/
def rawAcceptedOf (integrated filtered : List ℚ) (fs : ℚ) : List ℤ :=
  (detectFoldFinal integrated filtered fs).raw

/-- The deduplication pass of `detectPeaksAdaptive` (src/script.js:168-171):
keep a candidate only if it is more than `gap` after the previously kept one. -/
def dedup (cands : List ℤ) (gap : ℤ) : List ℤ :=
  cands.foldl (fun acc p =>
    if acc.length = 0 ∨ gap < p - acc.getLastD 0 then acc ++ [p] else acc) []

/-- Adaptive QRS detection, from `detectPeaksAdaptive(integrated, filtered, fs)`
(src/script.js:121-174). -/
def detectPeaksAdaptive (integrated filtered : List ℚ) (fs : ℚ) : List ℤ :=
  if localPeaksOf integrated = [] then []
  else dedup (detectFoldFinal integrated filtered fs).qrs (jsRound (0.2 * fs))

/-- RR intervals in seconds from peak indices (src/script.js:103-106):
`rrsec[i] = (peaks[i+1] - peaks[i]) / fs`. -/
def rrIntervals (peaks : List ℤ) (fs : ℚ) : List ℚ :=
  (List.range (peaks.length - 1)).map (fun i =>
    (((peaks.getD (i + 1) 0 : ℤ) : ℚ) - ((peaks.getD i 0 : ℤ) : ℚ)) / fs)

/-- Absolute successive RR differences (src/script.js:109-110). -/
def successiveDiffs (rrsec : List ℚ) : List ℚ :=
  (List.range (rrsec.length - 1)).map (fun i =>
    |rrsec.getD (i + 1) 0 - rrsec.getD i 0|)

/-- `meanRR` (src/script.js:107): mean of `rrsec`, 0 when empty. -/
def meanRRof (rrsec : List ℚ) : ℚ :=
  if rrsec.length ≠ 0 then rrsec.foldl (· + ·) 0 / (rrsec.length : ℚ) else 0

/-- `sdnn` (src/script.js:108): `std(rrsec)`, 0 when empty. -/
def sdnnOf (sqrt : ℚ → ℚ) (rrsec : List ℚ) : ℚ :=
  if rrsec.length ≠ 0 then std sqrt rrsec else 0

/-- `rmssd` (src/script.js:111): root of the mean squared successive
difference, with the mean defined as 0 for an empty difference list. -/
def rmssdOf (sqrt : ℚ → ℚ) (diffs : List ℚ) : ℚ :=
  sqrt (if diffs.length ≠ 0 then
    diffs.foldl (fun a b => a + b * b) 0 / (diffs.length : ℚ) else 0)

/-- `pnn50` (src/script.js:112): fraction of successive differences
exceeding 0.05 s, 0 for an empty difference list. -/
def pnn50Of (diffs : List ℚ) : ℚ :=
  if diffs.length ≠ 0 then
    (((diffs.filter (fun d => decide ((0.05 : ℚ) < d))).length : ℚ) / (diffs.length : ℚ))
  else 0

/-- The record returned by `preprocessAndDetect` (src/script.js:114-117). -/
structure DetectResult where
  filtered : List ℚ
  integrated : List ℚ
  peaks : List ℤ
  rrsec : List ℚ
  meanRR : ℚ
  sdnn : ℚ
  rmssd : ℚ
  pnn50 : ℚ
  deriving DecidableEq

/-- The pipeline `preprocessAndDetect(raw, fs)` (src/script.js:74-118):
detrend (0.6 s moving average), band-pass 5-15 Hz, 5-point derivative,
squaring, 0.15 s moving-window integration, adaptive detection, RR/HRV
metrics.  Window lengths are nonnegative rounds taken into ℕ (they are
nonnegative whenever `fs > 0`; the JS NaN propagation at negative `fs` is
outside the rational model). -/
def preprocessAndDetect (sin cos : ℚ → ℚ) (pi : ℚ) (sqrt : ℚ → ℚ)
    (raw : List ℚ) (fs : ℚ) : DetectResult :=
  let baselineWin := (jsRound (0.6 * fs)).toNat
  let baseline := movingAverage raw baselineWin
  let detr := (List.range raw.length).map (fun i => raw.getD i 0 - baseline.getD i 0)
  let bp := firBandpass sin cos pi 5 15 fs (max 101 (jsOr1 (jsRound (fs * 0.2)))).toNat
  let filtered := convolve detr bp
  let deriv := (List.range filtered.length).map (fun i =>
    if 2 ≤ i ∧ i + 2 < filtered.length then
      (2 * filtered.getD (i + 2) 0 + filtered.getD (i + 1) 0 -
        filtered.getD (i - 1) 0 - 2 * filtered.getD (i - 2) 0) / 8
    else 0)
  let squared := deriv.map (fun x => x * x)
  let intWin := (max 1 (jsRound (0.15 * fs))).toNat
  let integrated := movingAverage squared intWin
  let peaks := detectPeaksAdaptive integrated filtered fs
  let rrsec := rrIntervals peaks fs
  let diffs := successiveDiffs rrsec
  { filtered := filtered, integrated := integrated, peaks := peaks, rrsec := rrsec,
    meanRR := meanRRof rrsec, sdnn := sdnnOf sqrt rrsec,
    rmssd := rmssdOf sqrt diffs, pnn50 := pnn50Of diffs }

/-- The findings pushed onto `out` by `interpretFindings`
(src/script.js:178-222), as structured values rather than format strings. -/
inductive Finding
  | noBeats
  | sigBrady (bpm : ℤ)
  | mildBrady (bpm : ℤ)
  | normalHR (bpm : ℤ)
  | tachy (bpm : ℤ)
  | highRate (bpm : ℤ)
  | likelyAFib
  | possibleAFib
  | noAFibSignature
  | pvcs (count : ℕ)
  | longPauses (count : ℕ)
  | hrvSummary (sdnn rmssd pnn50 : ℚ)
  deriving DecidableEq

/-- The value returned by `interpretFindings` (src/script.js:224): the `out`
list plus the `details` fields. -/
structure FindingRecord where
  out : List Finding
  bpm : ℤ
  sdnn : ℚ
  rmssd : ℚ
  pnn50 : ℚ
  pvcCount : ℕ
  longPauses : ℕ
  deriving DecidableEq

/-- The AFib rule count (src/script.js:194-199): how many of
`sdnn > 0.12`, `rmssd > 0.1`, `pnn50 > 0.20` hold. -/
def afCountOf (sdnn rmssd pnn50 : ℚ) : ℕ :=
  ([decide ((0.12 : ℚ) < sdnn), decide ((0.1 : ℚ) < rmssd),
    decide ((0.20 : ℚ) < pnn50)].filter id).length

/-- The AFib finding (src/script.js:200-202). -/
def afFinding (sdnn rmssd pnn50 : ℚ) : Finding :=
  if 2 ≤ afCountOf sdnn rmssd pnn50 then .likelyAFib
  else if afCountOf sdnn rmssd pnn50 = 1 then .possibleAFib
  else .noAFibSignature

/-- The heart-rate finding as a function of `bpm`, the if/else-chain of
src/script.js:183-190. -/
def hrCategory (bpm : ℤ) : Finding :=
  if bpm = 0 then .noBeats
  else if bpm < 50 then .sigBrady bpm
  else if bpm < 60 then .mildBrady bpm
  else if bpm ≤ 100 then .normalHR bpm
  else if bpm ≤ 150 then .tachy bpm
  else .highRate bpm

/-- Modelled from the spec's words (claim C6's threshold table, for the
refinement comparison with `hrCategory`): `<50` significant bradycardia,
`[50,60)` mild bradycardia, `[60,100]` normal, `(100,150]` tachycardia,
`>150` high rate — a rate category is always assigned. -/
def specHRCategory (bpm : ℤ) : Finding :=
  if bpm < 50 then .sigBrady bpm
  else if bpm < 60 then .mildBrady bpm
  else if bpm ≤ 100 then .normalHR bpm
  else if bpm ≤ 150 then .tachy bpm
  else .highRate bpm

/-- Whether a finding is one of the heart-rate findings (the six outcomes of
src/script.js:183-190). -/
def isHRFinding : Finding → Bool
  | .noBeats => true
  | .sigBrady _ => true
  | .mildBrady _ => true
  | .normalHR _ => true
  | .tachy _ => true
  | .highRate _ => true
  | _ => false

/-- The PVC candidate indices (src/script.js:205-215): interior RR indices
with `curr < 0.8*prev` and `next > 1.15*prev`, computed only when
`rrsec.length ≥ 3`. -/
def pvcIndicesOf (rrsec : List ℚ) : List ℕ :=
  if 3 ≤ rrsec.length then
    (List.range rrsec.length).filter (fun i =>
      decide (1 ≤ i ∧ i < rrsec.length - 1 ∧
        rrsec.getD i 0 < 0.8 * rrsec.getD (i - 1) 0 ∧
        1.15 * rrsec.getD (i - 1) 0 < rrsec.getD (i + 1) 0))
  else []

/-- The rule engine `interpretFindings(rrsec, meanRR, sdnn, rmssd, pnn50,
peaks, fs)` (src/script.js:178-225).  `peaks` and `fs` are accepted and
unused, as in the source. -/
def interpretFindings (rrsec : List ℚ) (meanRR sdnn rmssd pnn50 : ℚ)
    (peaks : List ℤ) (fs : ℚ) : FindingRecord :=
  let bpm : ℤ := if meanRR ≠ 0 then jsRound (60 / meanRR) else 0
  let pvcIndices := pvcIndicesOf rrsec
  let pauses := rrsec.filter (fun r => decide ((3 : ℚ) < r))
  { out := [hrCategory bpm, afFinding sdnn rmssd pnn50]
      ++ (if 0 < pvcIndices.length then [Finding.pvcs pvcIndices.length] else [])
      ++ (if 0 < pauses.length then [Finding.longPauses pauses.length] else [])
      ++ [Finding.hrvSummary sdnn rmssd pnn50],
    bpm := bpm, sdnn := sdnn, rmssd := rmssd, pnn50 := pnn50,
    pvcCount := pvcIndices.length, longPauses := pauses.length }

/-- One full analysis run: `preprocessAndDetect` followed by
`interpretFindings` on its outputs, as wired in the analyze handler
(src/script.js:308-321). -/
def runPipeline (sin cos : ℚ → ℚ) (pi : ℚ) (sqrt : ℚ → ℚ)
    (raw : List ℚ) (fs : ℚ) : DetectResult × FindingRecord :=
  let r := preprocessAndDetect sin cos pi sqrt raw fs
  (r, interpretFindings r.rrsec r.meanRR r.sdnn r.rmssd r.pnn50 r.peaks fs)

/- ------------------------- general-purpose lemmas ------------------------- -/

/-- A fold preserves any invariant preserved by its step function. -/
theorem foldl_invariant {α β : Type} (step : α → β → α) (P : α → Prop) :
    ∀ (l : List β) (init : α), P init →
      (∀ a b, P a → b ∈ l → P (step a b)) → P (l.foldl step init) := by
  intro l
  induction l with
  | nil => intro init h0 _; exact h0
  | cons x xs ih =>
    intro init h0 hstep
    exact ih (step init x) (hstep init x h0 (by simp))
      (fun a b ha hb => hstep a b ha (by simp [hb]))

/-- Reading a mapped range at an in-range index. -/
theorem getD_map_range (f : ℕ → ℚ) (N n : ℕ) (d : ℚ) (h : n < N) :
    ((List.range N).map f).getD n d = f n := by
  rw [List.getD_eq_getElem?_getD, List.getElem?_map, List.getElem?_range h]
  rfl

/-- A list is the map of its reads over its index range. -/
theorem map_getD_range_eq_self (l : List ℚ) :
    (List.range l.length).map (fun i => l.getD i 0) = l := by
  apply List.ext_getElem (by simp)
  intro i h1 h2
  simp only [List.getElem_map, List.getElem_range]
  rw [List.getD_eq_getElem?_getD, List.getElem?_eq_getElem h2]
  rfl

theorem convolve_length (signal kernel : List ℚ) :
    (convolve signal kernel).length = signal.length := by
  unfold convolve
  simp only [List.length_map, List.length_range]

theorem firBandpass_length (sin cos : ℚ → ℚ) (pi lowcut highcut fs : ℚ) (N0 : ℕ) :
    (firBandpass sin cos pi lowcut highcut fs N0).length
      = if N0 % 2 = 0 then N0 + 1 else N0 := by
  simp [firBandpass]

/-- Folds that push one element per step grow the list component by the input
length. -/
theorem length_foldl_push {α β : Type} (f : List ℚ × β → α → List ℚ × β)
    (hf : ∀ acc a, ((f acc a).1).length = acc.1.length + 1) :
    ∀ (l : List α) (acc : List ℚ × β),
      ((l.foldl f acc).1).length = acc.1.length + l.length := by
  intro l
  induction l with
  | nil => intro acc; simp
  | cons x xs ih =>
    intro acc
    rw [List.foldl_cons, ih (f acc x), hf acc x, List.length_cons]
    omega

theorem movingAverage_length (arr : List ℚ) (win : ℕ) :
    (movingAverage arr win).length = arr.length := by
  unfold movingAverage
  rw [length_foldl_push]
  · simp
  · intro acc a; simp

theorem jsRound_nonneg (x : ℚ) (h : 0 ≤ x) : 0 ≤ jsRound x := by
  unfold jsRound
  rw [round_eq]
  exact Int.floor_nonneg.mpr (by linarith)

/-- Membership in the scanned local-maxima list. -/
theorem mem_localPeaksOf (x : List ℚ) (i : ℕ) :
    i ∈ localPeaksOf x ↔
      2 ≤ i ∧ i + 2 < x.length ∧
        x.getD (i - 1) 0 < x.getD i 0 ∧ x.getD (i + 1) 0 < x.getD i 0 := by
  unfold localPeaksOf
  simp only [List.mem_filter, List.mem_range, decide_eq_true_eq]
  constructor
  · rintro ⟨-, h⟩; exact h
  · rintro ⟨h1, h2, h3⟩; exact ⟨by omega, h1, h2, h3⟩

theorem int_add_toNat_sub (s e : ℤ) : s + ((e - s).toNat : ℤ) = max s e := by
  rcases le_total s e with h | h
  · rw [Int.toNat_of_nonneg (by omega), max_eq_right h]; ring
  · rw [max_eq_left h]
    have : (e - s).toNat = 0 := Int.toNat_of_nonpos (by omega)
    rw [this]; ring

/-- The refinement loop returns an index between `start` and `max start fin`. -/
theorem refinePeak_bounds (f : List ℚ) (s e : ℤ) :
    s ≤ refinePeak f s e ∧ refinePeak f s e ≤ max s e := by
  unfold refinePeak
  have h := foldl_invariant
    (fun (st : ℤ × ℚ) (t : ℕ) =>
      let j := s + 1 + (t : ℤ)
      let fj := f.getD j.toNat 0
      if st.2 < fj then (j, fj) else st)
    (fun st => s ≤ st.1 ∧ st.1 ≤ s + ((e - s).toNat : ℤ))
    (List.range (e - s).toNat) (s, f.getD s.toNat 0)
    (by constructor <;> simp)
    (by
      intro a t ha ht
      rw [List.mem_range] at ht
      dsimp only
      split
      · constructor <;> [omega; omega]
      · exact ha)
  rw [int_add_toNat_sub] at h
  exact h

/-- The deduplication pass always produces gaps greater than `gap`. -/
theorem dedup_chain (c : List ℤ) (g : ℤ) :
    List.Chain' (fun a b => g < b - a) (dedup c g) := by
  unfold dedup
  apply foldl_invariant _ (fun acc => List.Chain' (fun a b => g < b - a) acc)
  · exact List.chain'_nil
  · intro acc p hP _
    dsimp only
    split
    · next hc =>
      rcases hc with hlen | hgap
      · have : acc = [] := List.length_eq_zero.mp hlen
        subst this
        simp
      · rw [List.chain'_append]
        refine ⟨hP, List.chain'_singleton p, ?_⟩
        intro x hx y hy
        simp only [List.head?_cons, Option.mem_def, Option.some.injEq] at hy
        subst hy
        have hne : acc ≠ [] := by
          intro h; subst h; simp at hx
        rw [List.getLast?_eq_getLast acc hne] at hx
        simp only [Option.mem_def, Option.some.injEq] at hx
        subst hx
        rwa [List.getLastD_eq_getLast? , List.getLast?_eq_getLast acc hne] at hgap
    · exact hP

/-- Everything kept by deduplication was a candidate. -/
theorem dedup_mem (c : List ℤ) (g : ℤ) : ∀ p ∈ dedup c g, p ∈ c := by
  unfold dedup
  apply foldl_invariant _ (fun acc => ∀ x ∈ acc, x ∈ c)
  · intro x hx; simp at hx
  · intro acc p hP hp
    dsimp only
    split
    · intro x hx
      rcases List.mem_append.mp hx with h | h
      · exact hP x h
      · simp only [List.mem_singleton] at h; subst h; exact hp
    · exact hP

/-- In a chain with gaps exceeding a nonnegative bound, the head is below
every later element by more than the bound. -/
theorem chain_gap_head (g : ℤ) (hg : 0 ≤ g) :
    ∀ (l : List ℤ) (a : ℤ), List.Chain (fun x y => g < y - x) a l →
      ∀ b ∈ l, g < b - a := by
  intro l
  induction l with
  | nil => intro a _ b hb; simp at hb
  | cons c l ih =>
    intro a hch b hb
    rw [List.chain_cons] at hch
    rcases List.mem_cons.mp hb with h | h
    · subst h; exact hch.1
    · have h1 := ih c hch.2 b h
      have h2 := hch.1
      omega

/-- A chain with gaps exceeding a nonnegative bound is pairwise so. -/
theorem chain_gap_pairwise (g : ℤ) (hg : 0 ≤ g) :
    ∀ l : List ℤ, List.Chain' (fun x y => g < y - x) l →
      List.Pairwise (fun x y => g < y - x) l := by
  intro l
  induction l with
  | nil => intro _; exact List.Pairwise.nil
  | cons a l ih =>
    intro hch
    have hc : List.Chain (fun x y => g < y - x) a l := hch
    refine List.Pairwise.cons (chain_gap_head g hg l a hc) (ih ?_)
    cases l with
    | nil => exact List.chain'_nil
    | cons c l' => exact (List.chain_cons.mp hc).2

/-- The scan-state invariant of the adaptive detector: the accepted raw
indices form a chain with gaps exceeding the refractory period, `lastQRS` is
the last accepted raw index, and every refined candidate is nonnegative and —
whenever the filtered buffer is at least as long as the envelope — a valid
index into it. -/
theorem detectFoldFinal_invariant (integrated filtered : List ℚ) (fs : ℚ)
    (hfs : 0 < fs) :
    List.Chain' (fun a b => jsRound (0.25 * fs) < b - a)
        (detectFoldFinal integrated filtered fs).raw ∧
      (detectFoldFinal integrated filtered fs).raw.getLastD (-9999)
          = (detectFoldFinal integrated filtered fs).lastQRS ∧
      ∀ p ∈ (detectFoldFinal integrated filtered fs).qrs,
        0 ≤ p ∧ (integrated.length ≤ filtered.length → p < (filtered.length : ℤ)) := by
  unfold detectFoldFinal
  apply foldl_invariant _ (fun st : DetectState =>
    List.Chain' (fun a b => jsRound (0.25 * fs) < b - a) st.raw ∧
      st.raw.getLastD (-9999) = st.lastQRS ∧
      ∀ p ∈ st.qrs,
        0 ≤ p ∧ (integrated.length ≤ filtered.length → p < (filtered.length : ℤ)))
  · exact ⟨List.chain'_nil, rfl, by intro p hp; simp [detectInit] at hp⟩
  · intro st idx hP hmem
    obtain ⟨hchain, hlast, hqrs⟩ := hP
    have hsh : 0 ≤ jsRound (0.05 * fs) := jsRound_nonneg _ (by linarith)
    unfold detectStep
    dsimp only
    split
    · next hacc =>
      refine ⟨?_, ?_, ?_⟩
      · show List.Chain' _ (st.raw ++ [(idx : ℤ)])
        rcases eq_or_ne st.raw [] with h | h
        · rw [h]; simp
        · rw [List.chain'_append]
          refine ⟨hchain, List.chain'_singleton _, ?_⟩
          intro x hx y hy
          simp only [List.head?_cons, Option.mem_def, Option.some.injEq] at hy
          subst hy
          rw [List.getLast?_eq_getLast _ h] at hx
          simp only [Option.mem_def, Option.some.injEq] at hx
          subst hx
          rw [List.getLastD_eq_getLast?, List.getLast?_eq_getLast _ h] at hlast
          simp only [Option.getD_some] at hlast
          rw [hlast]
          exact hacc.2
      · show (st.raw ++ [(idx : ℤ)]).getLastD (-9999) = (idx : ℤ)
        rw [List.getLastD_eq_getLast?, List.getLast?_concat]
        rfl
      · intro p hp
        rcases List.mem_append.mp hp with h | h
        · exact hqrs p h
        · simp only [List.mem_singleton] at h
          subst h
          have hb := refinePeak_bounds filtered
            (max 0 ((idx : ℤ) - jsRound (0.05 * fs)))
            (min ((filtered.length : ℤ) - 1) ((idx : ℤ) + jsRound (0.05 * fs)))
          have h0 : (0 : ℤ) ≤ max 0 ((idx : ℤ) - jsRound (0.05 * fs)) := le_max_left _ _
          constructor
          · omega
          · intro hlen
            have hm := (mem_localPeaksOf integrated idx).mp hmem
            have hidx : (idx : ℤ) < (filtered.length : ℤ) := by
              have : idx < filtered.length := by omega
              exact_mod_cast this
            have hstart : max 0 ((idx : ℤ) - jsRound (0.05 * fs)) ≤ (idx : ℤ) := by
              apply max_le
              · exact_mod_cast Int.ofNat_nonneg idx
              · omega
            have hfin : min ((filtered.length : ℤ) - 1) ((idx : ℤ) + jsRound (0.05 * fs))
                < (filtered.length : ℤ) := by
              have := min_le_left ((filtered.length : ℤ) - 1)
                ((idx : ℤ) + jsRound (0.05 * fs))
              omega
            have := hb.2
            have hmax : max (max 0 ((idx : ℤ) - jsRound (0.05 * fs)))
                (min ((filtered.length : ℤ) - 1) ((idx : ℤ) + jsRound (0.05 * fs)))
                < (filtered.length : ℤ) := max_lt (lt_of_le_of_lt hstart hidx) hfin
            omega
    · exact ⟨hchain, hlast, hqrs⟩

/-- A fold whose step adds a per-element contribution is the sum of those
contributions. -/
theorem foldl_step_sum (step : ℚ → ℕ → ℚ) (g : ℕ → ℚ)
    (hstep : ∀ s j, step s j = s + g j) :
    ∀ (l : List ℕ) (s : ℚ), l.foldl step s = s + (l.map g).sum := by
  intro l
  induction l with
  | nil => intro s; simp
  | cons a t ih =>
    intro s
    rw [List.foldl_cons, List.map_cons, List.sum_cons, ih, hstep]
    ring

/-- A sum over an index range supported at a single index is the value there. -/
theorem sum_map_range_single (g : ℕ → ℚ) (m c : ℕ) (hc : c < m)
    (h0 : ∀ j < m, j ≠ c → g j = 0) :
    ((List.range m).map g).sum = g c := by
  induction m with
  | zero => omega
  | succ m ih =>
    rw [List.range_succ, List.map_append, List.sum_append]
    simp only [List.map_cons, List.map_nil, List.sum_cons, List.sum_nil]
    rcases Nat.lt_or_ge c m with h | h
    · rw [ih h (fun j hj hne => h0 j (by omega) hne), h0 m (by omega) (by omega)]
      ring
    · have hcm : c = m := by omega
      subst hcm
      have hz : ∀ x ∈ (List.range c).map g, x = 0 := by
        intro x hx
        rw [List.mem_map] at hx
        obtain ⟨j, hj, rfl⟩ := hx
        rw [List.mem_range] at hj
        exact h0 j (by omega) (by omega)
      rw [List.sum_eq_zero hz]
      ring

/-- One output sample of the convolution, as a sum over kernel taps. -/
theorem convolve_getD_sum (signal kernel : List ℚ) (i : ℕ) (hi : i < signal.length) :
    (convolve signal kernel).getD i 0
      = ((List.range kernel.length).map (fun (j : ℕ) =>
          if 0 ≤ (i : ℤ) - (j : ℤ) + ((kernel.length / 2 : ℕ) : ℤ) ∧
              (i : ℤ) - (j : ℤ) + ((kernel.length / 2 : ℕ) : ℤ) < (signal.length : ℤ) then
            signal.getD ((i : ℤ) - (j : ℤ) + ((kernel.length / 2 : ℕ) : ℤ)).toNat 0
              * kernel.getD j 0
          else 0)).sum := by
  unfold convolve
  rw [getD_map_range _ _ _ _ hi]
  dsimp only
  refine (foldl_step_sum _ _ ?_ (List.range kernel.length) 0).trans (zero_add _)
  intro s j
  dsimp only
  split
  · rfl
  · exact (add_zero _).symm

/-- For odd `sin`, the sinc-style quotient is even in its argument. -/
theorem sinc_neg (sin : ℚ → ℚ) (hsin : ∀ x, sin (-x) = -sin x) (c2 c1 pi A : ℚ) :
    (sin (c2 * -A) - sin (c1 * -A)) / (pi * -A)
      = (sin (c2 * A) - sin (c1 * A)) / (pi * A) := by
  rw [show c2 * -A = -(c2 * A) by ring, show c1 * -A = -(c1 * A) by ring, hsin, hsin,
    show -sin (c2 * A) - -sin (c1 * A) = -(sin (c2 * A) - sin (c1 * A)) by ring,
    show pi * -A = -(pi * A) by ring, neg_div_neg_eq]

/-- Symmetry of one band-pass coefficient about the kernel center, for an
odd tap count, given that `sin` is odd and `cos` satisfies the reflection
rule at `2*pi`. -/
theorem firCoef_symm (sin cos : ℚ → ℚ) (pi lowcut highcut fs : ℚ) (N : ℕ) (n : ℕ)
    (hsin : ∀ x, sin (-x) = -sin x) (hcos : ∀ x, cos (2 * pi - x) = cos x)
    (hodd : N % 2 = 1) (hn : n < N) :
    firCoef sin cos pi lowcut highcut fs N n
      = firCoef sin cos pi lowcut highcut fs N (N - 1 - n) := by
  rcases eq_or_ne N 1 with h1 | h1
  · subst h1
    have : n = 0 := by omega
    subst this
    rfl
  · have hN3 : 3 ≤ N := by omega
    unfold firCoef
    dsimp only
    have hcast : ((N - 1 - n : ℕ) : ℤ) = (N : ℤ) - 1 - n := by
      have h1' : n ≤ N - 1 := by omega
      omega
    have hM : ((N : ℤ) - 1) / 2 * 2 = (N : ℤ) - 1 := by omega
    have hk' : ((N - 1 - n : ℕ) : ℤ) - ((N : ℤ) - 1) / 2
        = -((n : ℤ) - ((N : ℤ) - 1) / 2) := by omega
    have hwin : cos (2 * pi * ((N - 1 - n : ℕ) : ℚ) / ((N : ℚ) - 1))
        = cos (2 * pi * (n : ℚ) / ((N : ℚ) - 1)) := by
      have hden : ((N : ℚ) - 1) ≠ 0 := by
        have : (3 : ℚ) ≤ (N : ℚ) := by exact_mod_cast hN3
        intro h
        linarith
      have hargcast : ((N - 1 - n : ℕ) : ℚ) = (N : ℚ) - 1 - (n : ℚ) := by
        have h1' : n + 1 ≤ N := hn
        push_cast [Nat.sub_sub]
        have : (n : ℚ) + 1 ≤ (N : ℚ) := by exact_mod_cast h1'
        ring_nf
        rw [Nat.cast_sub (by omega)]
        push_cast
        ring
      rw [hargcast]
      have harg : 2 * pi * ((N : ℚ) - 1 - (n : ℚ)) / ((N : ℚ) - 1)
          = 2 * pi - 2 * pi * (n : ℚ) / ((N : ℚ) - 1) := by
        field_simp
        ring
      rw [harg, hcos]
    rcases eq_or_ne ((n : ℤ) - ((N : ℤ) - 1) / 2) 0 with hk | hk
    · have hn' : (N - 1 - n : ℕ) = n := by omega
      rw [hn']
    · have hk'ne : ((N - 1 - n : ℕ) : ℤ) - ((N : ℤ) - 1) / 2 ≠ 0 := by
        rw [hk']
        exact neg_ne_zero.mpr hk
      rw [if_neg hk, if_neg hk'ne, hwin, hk']
      congr 1
      push_cast
      exact (sinc_neg sin hsin _ _ pi _).symm

theorem hrCategory_cases (b : ℤ) :
    hrCategory b = Finding.noBeats ∨ hrCategory b = Finding.sigBrady b ∨
      hrCategory b = Finding.mildBrady b ∨ hrCategory b = Finding.normalHR b ∨
      hrCategory b = Finding.tachy b ∨ hrCategory b = Finding.highRate b := by
  unfold hrCategory
  split_ifs <;> simp

theorem isHRFinding_hrCategory (b : ℤ) : isHRFinding (hrCategory b) = true := by
  rcases hrCategory_cases b with h | h | h | h | h | h <;> rw [h] <;> rfl

theorem afFinding_cases (s r p : ℚ) :
    afFinding s r p = Finding.likelyAFib ∨ afFinding s r p = Finding.possibleAFib ∨
      afFinding s r p = Finding.noAFibSignature := by
  unfold afFinding
  split_ifs <;> simp

theorem isHRFinding_afFinding (s r p : ℚ) : isHRFinding (afFinding s r p) = false := by
  rcases afFinding_cases s r p with h | h | h <;> rw [h] <;> rfl

theorem afFinding_eq_likely (s r p : ℚ) :
    afFinding s r p = Finding.likelyAFib ↔ 2 ≤ afCountOf s r p := by
  unfold afFinding
  split_ifs with h1 h2
  · simp [h1]
  · simp [h1]
  · simp [h1]

theorem afFinding_eq_possible (s r p : ℚ) :
    afFinding s r p = Finding.possibleAFib ↔ afCountOf s r p = 1 := by
  unfold afFinding
  split_ifs with h1 h2
  · simp
    omega
  · simp [h2]
  · simp [h2]

theorem afFinding_eq_none (s r p : ℚ) :
    afFinding s r p = Finding.noAFibSignature ↔ afCountOf s r p = 0 := by
  unfold afFinding
  split_ifs with h1 h2
  · simp
    omega
  · simp
    omega
  · simp
    omega

/-- Membership in the findings list produced by `interpretFindings`. -/
theorem mem_out_interpret (rr : List ℚ) (meanRR s r p : ℚ) (pk : List ℤ) (fs : ℚ)
    (f : Finding) :
    f ∈ (interpretFindings rr meanRR s r p pk fs).out ↔
      f = hrCategory (if meanRR ≠ 0 then jsRound (60 / meanRR) else 0) ∨
        f = afFinding s r p ∨
        (0 < (pvcIndicesOf rr).length ∧ f = Finding.pvcs (pvcIndicesOf rr).length) ∨
        (0 < (rr.filter (fun x => decide ((3 : ℚ) < x))).length ∧
          f = Finding.longPauses (rr.filter (fun x => decide ((3 : ℚ) < x))).length) ∨
        f = Finding.hrvSummary s r p := by
  by_cases h1 : 0 < (pvcIndicesOf rr).length <;>
    by_cases h2 : 0 < (rr.filter (fun x => decide ((3 : ℚ) < x))).length <;>
    simp [interpretFindings, h1, h2]

theorem hrCategory_ne_af (b : ℤ) :
    hrCategory b ≠ Finding.likelyAFib ∧ hrCategory b ≠ Finding.possibleAFib ∧
      hrCategory b ≠ Finding.noAFibSignature := by
  rcases hrCategory_cases b with h | h | h | h | h | h <;> rw [h] <;> simp

theorem isHRFinding_pvcs (n : ℕ) : isHRFinding (Finding.pvcs n) = false := rfl

theorem isHRFinding_longPauses (n : ℕ) : isHRFinding (Finding.longPauses n) = false := rfl

theorem isHRFinding_hrvSummary (a b c : ℚ) :
    isHRFinding (Finding.hrvSummary a b c) = false := rfl

/-- `interpretFindings` always contains exactly one heart-rate finding. -/
theorem countP_isHRFinding (rr : List ℚ) (meanRR s r p : ℚ) (pk : List ℤ) (fs : ℚ) :
    (interpretFindings rr meanRR s r p pk fs).out.countP isHRFinding = 1 := by
  by_cases h1 : 0 < (pvcIndicesOf rr).length <;>
    by_cases h2 : 0 < (rr.filter (fun x => decide ((3 : ℚ) < x))).length <;>
    simp [interpretFindings, h1, h2, List.countP_append, List.countP_cons,
      isHRFinding_hrCategory, isHRFinding_afFinding, isHRFinding_pvcs,
      isHRFinding_longPauses, isHRFinding_hrvSummary]

/-- An AFib finding is in the output exactly when it is the one selected. -/
theorem af_mem_out (rr : List ℚ) (meanRR s r p : ℚ) (pk : List ℤ) (fs : ℚ)
    (f : Finding)
    (hAF : f = Finding.likelyAFib ∨ f = Finding.possibleAFib ∨
      f = Finding.noAFibSignature) :
    f ∈ (interpretFindings rr meanRR s r p pk fs).out ↔ afFinding s r p = f := by
  rw [mem_out_interpret]
  constructor
  · rintro (h | h | ⟨-, h⟩ | ⟨-, h⟩ | h)
    · exfalso
      rcases hAF with rfl | rfl | rfl
      · exact (hrCategory_ne_af _).1 h.symm
      · exact (hrCategory_ne_af _).2.1 h.symm
      · exact (hrCategory_ne_af _).2.2 h.symm
    · exact h.symm
    · exfalso; rcases hAF with rfl | rfl | rfl <;> simp at h
    · exfalso; rcases hAF with rfl | rfl | rfl <;> simp at h
    · exfalso; rcases hAF with rfl | rfl | rfl <;> simp at h
  · intro h
    exact Or.inr (Or.inl h.symm)

/- ------------------------------- claims ------------------------------- -/

/-- C1 (counterexample): at invalid parameter sets the pipeline does not fail:
with `lowCut = 15 ≥ highCut = 5` the filter design still returns a full
101-tap kernel, and with `fs = 20` (so `highCut = 15 ≥ fs/2 = 10`, outside
the open interval `(0, fs/2)`) `preprocessAndDetect` still completes,
producing a filtered buffer of the input's length instead of failing fast. -/
theorem c1_invalid_params_counterexample :
    ¬ ((15 : ℚ) < 5) ∧
      (firBandpass (fun _ => 0) (fun _ => 0) 3 15 5 250 101).length = 101 ∧
      ¬ ((15 : ℚ) < 20 / 2) ∧
      (preprocessAndDetect (fun _ => 0) (fun _ => 0) 3 (fun x => x)
        [1, 2, 3, 4, 5] 20).filtered.length = 5 :=
  ⟨by norm_num, by with_unfolding_all rfl, by norm_num, by with_unfolding_all rfl⟩

/-- C1 (amended): the pipeline performs no parameter validation at all: for
every parameter set, valid or invalid (non-positive `fs`, `lowCut ≥ highCut`,
cutoffs outside `(0, fs/2)`), `firBandpass` silently returns a kernel of the
forced-odd requested length and `preprocessAndDetect` completes, returning a
result record whose filtered buffer has the input's length; no error
condition is ever signalled. -/
theorem c1_no_validation (sin cos : ℚ → ℚ) (pi lowcut highcut fs : ℚ) (N0 : ℕ)
    (sqrt : ℚ → ℚ) (raw : List ℚ) (fs2 : ℚ) :
    (firBandpass sin cos pi lowcut highcut fs N0).length
        = (if N0 % 2 = 0 then N0 + 1 else N0) ∧
      (preprocessAndDetect sin cos pi sqrt raw fs2).filtered.length = raw.length := by
  constructor
  · exact firBandpass_length sin cos pi lowcut highcut fs N0
  · unfold preprocessAndDetect
    dsimp only
    rw [convolve_length, List.length_map, List.length_range]

/-- C2 (counterexample): with envelope `[0,0,1,0,0,0]`, an empty filtered
buffer and `fs = 1 > 0`, the detector returns the peak index 2, which is not
a valid index into the (empty) filtered buffer. -/
theorem c2_validity_counterexample :
    (0 : ℚ) < 1 ∧
      detectPeaksAdaptive [0, 0, 1, 0, 0, 0] ([] : List ℚ) 1 = [2] ∧
      ¬ ((2 : ℤ) < (([] : List ℚ).length : ℤ)) :=
  ⟨by norm_num, by with_unfolding_all rfl, by norm_num⟩

/-- C2 (amended): for every envelope, filtered buffer and `fs > 0`: any two
raw accepted candidate indices are more than `round(0.25*fs)` apart;
consecutive final peaks are more than `round(0.2*fs)` apart; the final Peak
Index Set is strictly increasing; and — provided the filtered buffer is at
least as long as the envelope (as always holds inside the pipeline, where
they have equal length) — every final entry is a valid index into the
filtered buffer. -/
theorem c2_refractory_and_peaks (integrated filtered : List ℚ) (fs : ℚ)
    (hfs : 0 < fs) :
    List.Pairwise (fun a b => jsRound (0.25 * fs) < b - a)
        (rawAcceptedOf integrated filtered fs) ∧
      List.Chain' (fun a b => jsRound (0.2 * fs) < b - a)
        (detectPeaksAdaptive integrated filtered fs) ∧
      List.Pairwise (· < ·) (detectPeaksAdaptive integrated filtered fs) ∧
      (integrated.length ≤ filtered.length →
        ∀ p ∈ detectPeaksAdaptive integrated filtered fs,
          0 ≤ p ∧ p < (filtered.length : ℤ)) := by
  obtain ⟨hchain, hlast, hqrs⟩ := detectFoldFinal_invariant integrated filtered fs hfs
  have hrefr : 0 ≤ jsRound (0.25 * fs) := jsRound_nonneg _ (by linarith)
  have hgap : 0 ≤ jsRound (0.2 * fs) := jsRound_nonneg _ (by linarith)
  refine ⟨?_, ?_, ?_, ?_⟩
  · exact chain_gap_pairwise _ hrefr _ hchain
  · unfold detectPeaksAdaptive
    split
    · exact List.chain'_nil
    · exact dedup_chain _ _
  · unfold detectPeaksAdaptive
    split
    · exact List.Pairwise.nil
    · exact (chain_gap_pairwise _ hgap _ (dedup_chain _ _)).imp (fun h => by omega)
  · intro hlen p hp
    unfold detectPeaksAdaptive at hp
    split at hp
    · simp at hp
    · have hq := dedup_mem _ _ p hp
      obtain ⟨h0, himp⟩ := hqrs p hq
      exact ⟨h0, himp hlen⟩

/-- C2 (witness): the amended theorem at the concrete envelope
`[0,0,1,0,0,0]`, filtered buffer `[0,0,0,0,0,0]` and `fs = 1`. -/
theorem c2_witness :
    List.Pairwise (fun a b => jsRound (0.25 * 1) < b - a)
        (rawAcceptedOf [0, 0, 1, 0, 0, 0] [0, 0, 0, 0, 0, 0] 1) ∧
      List.Chain' (fun a b => jsRound (0.2 * 1) < b - a)
        (detectPeaksAdaptive [0, 0, 1, 0, 0, 0] [0, 0, 0, 0, 0, 0] 1) ∧
      List.Pairwise (· < ·) (detectPeaksAdaptive [0, 0, 1, 0, 0, 0] [0, 0, 0, 0, 0, 0] 1) ∧
      (([0, 0, 1, 0, 0, 0] : List ℚ).length ≤ ([0, 0, 0, 0, 0, 0] : List ℚ).length →
        ∀ p ∈ detectPeaksAdaptive [0, 0, 1, 0, 0, 0] [0, 0, 0, 0, 0, 0] 1,
          0 ≤ p ∧ p < (([0, 0, 0, 0, 0, 0] : List ℚ).length : ℤ)) :=
  c2_refractory_and_peaks [0, 0, 1, 0, 0, 0] [0, 0, 0, 0, 0, 0] 1 (by norm_num)

/-- C3: with fewer than 2 peaks, `meanRR` and `SDNN` are exactly 0; with
fewer than 3 peaks, `RMSSD` and `pNN50` are exactly 0 — defined zero values
(in this exact-rational model there is no NaN/Infinity to produce), given
only that `sqrt 0 = 0`, which holds for `Math.sqrt`. -/
theorem c3_hrv_degenerate (sqrt : ℚ → ℚ) (peaks : List ℤ) (fs : ℚ)
    (hsqrt : sqrt 0 = 0) :
    (peaks.length < 2 →
        meanRRof (rrIntervals peaks fs) = 0 ∧ sdnnOf sqrt (rrIntervals peaks fs) = 0) ∧
      (peaks.length < 3 →
        rmssdOf sqrt (successiveDiffs (rrIntervals peaks fs)) = 0 ∧
          pnn50Of (successiveDiffs (rrIntervals peaks fs)) = 0) := by
  have hrr : (rrIntervals peaks fs).length = peaks.length - 1 := by
    simp [rrIntervals]
  have hdf : (successiveDiffs (rrIntervals peaks fs)).length = peaks.length - 1 - 1 := by
    simp [successiveDiffs, hrr]
  constructor
  · intro h
    have h0 : (rrIntervals peaks fs).length = 0 := by omega
    constructor
    · simp [meanRRof, h0]
    · simp [sdnnOf, h0]
  · intro h
    have h0 : (successiveDiffs (rrIntervals peaks fs)).length = 0 := by omega
    constructor
    · simp [rmssdOf, h0, hsqrt]
    · simp [pnn50Of, h0]

/-- C3 (witness): the degenerate metrics at the one-peak set `[5]`. -/
theorem c3_witness :
    meanRRof (rrIntervals [5] 250) = 0 ∧
      sdnnOf (fun x => x) (rrIntervals [5] 250) = 0 ∧
      rmssdOf (fun x => x) (successiveDiffs (rrIntervals [5] 250)) = 0 ∧
      pnn50Of (successiveDiffs (rrIntervals [5] 250)) = 0 := by
  obtain ⟨h1, h2⟩ := c3_hrv_degenerate (fun x => x) [5] 250 rfl
  obtain ⟨a, b⟩ := h1 (by decide)
  obtain ⟨c, d⟩ := h2 (by decide)
  exact ⟨a, b, c, d⟩

/-- C4 (counterexample): the envelope `[0,5,0,0,0,0]` has a strict local
maximum at index 1 (its value 5 exceeds both neighbours), yet the scan of
`detectPeaksAdaptive` never visits it: the loop runs only over `2 ≤ i < N-2`. -/
theorem c4_skipped_maximum :
    (([0, 5, 0, 0, 0, 0] : List ℚ).getD 0 0 < ([0, 5, 0, 0, 0, 0] : List ℚ).getD 1 0 ∧
        ([0, 5, 0, 0, 0, 0] : List ℚ).getD 2 0 < ([0, 5, 0, 0, 0, 0] : List ℚ).getD 1 0) ∧
      1 ∉ localPeaksOf [0, 5, 0, 0, 0, 0] :=
  of_decide_eq_true (by with_unfolding_all rfl)

/-- C4 (amended): the detector scans, left to right, exactly the strict local
maxima whose index lies in `[2, N-3]` (maxima at distance less than 2 from
either end are skipped), and at each scanned maximum it updates exactly one
of SPKI/NPKI by the `0.125/0.875` rule and recomputes the threshold as
`NPKI + 0.25*(SPKI - NPKI)`. -/
theorem c4_scanned_maxima :
    (∀ (x : List ℚ) (i : ℕ),
        i ∈ localPeaksOf x ↔
          2 ≤ i ∧ i + 2 < x.length ∧
            x.getD (i - 1) 0 < x.getD i 0 ∧ x.getD (i + 1) 0 < x.getD i 0) ∧
      (∀ (integrated filtered : List ℚ) (fs : ℚ) (st : DetectState) (idx : ℕ),
        ((detectStep integrated filtered fs st idx).spki
              = 0.125 * integrated.getD idx 0 + 0.875 * st.spki ∧
            (detectStep integrated filtered fs st idx).npki = st.npki) ∨
          ((detectStep integrated filtered fs st idx).npki
              = 0.125 * integrated.getD idx 0 + 0.875 * st.npki ∧
            (detectStep integrated filtered fs st idx).spki = st.spki)) ∧
      (∀ (integrated filtered : List ℚ) (fs : ℚ) (st : DetectState) (idx : ℕ),
        (detectStep integrated filtered fs st idx).thresh
          = (detectStep integrated filtered fs st idx).npki
            + 0.25 * ((detectStep integrated filtered fs st idx).spki
              - (detectStep integrated filtered fs st idx).npki)) := by
  refine ⟨mem_localPeaksOf, ?_, ?_⟩
  · intro integrated filtered fs st idx
    unfold detectStep
    dsimp only
    split
    · exact Or.inl ⟨rfl, rfl⟩
    · exact Or.inr ⟨rfl, rfl⟩
  · intro integrated filtered fs st idx
    rfl

/-- C5: for every `lowCut`, `highCut`, `fs` and requested tap count, the FIR
kernel is symmetric about its center: `kernel[n] = kernel[N_taps-1-n]`, for
any odd `sin` and any `cos` satisfying the reflection rule `cos (2π - x) =
cos x` — both hold for the real `Math.sin`/`Math.cos` the source calls. -/
theorem c5_kernel_symmetric (sin cos : ℚ → ℚ) (pi lowcut highcut fs : ℚ)
    (N0 : ℕ) (n : ℕ)
    (hsin : ∀ x, sin (-x) = -sin x) (hcos : ∀ x, cos (2 * pi - x) = cos x)
    (hn : n < (firBandpass sin cos pi lowcut highcut fs N0).length) :
    (firBandpass sin cos pi lowcut highcut fs N0).getD n 0
      = (firBandpass sin cos pi lowcut highcut fs N0).getD
          ((firBandpass sin cos pi lowcut highcut fs N0).length - 1 - n) 0 := by
  have hlen := firBandpass_length sin cos pi lowcut highcut fs N0
  rw [hlen] at hn ⊢
  have hodd : (if N0 % 2 = 0 then N0 + 1 else N0) % 2 = 1 := by
    by_cases h : N0 % 2 = 0 <;> simp [h] <;> omega
  unfold firBandpass
  rw [getD_map_range _ _ _ _ hn, getD_map_range _ _ _ _ (by omega)]
  exact firCoef_symm sin cos pi lowcut highcut fs _ n hsin hcos hodd hn

/-- C5 (witness): symmetry of tap 3 of a concrete 101-tap design, with
`sin := id` (odd) and `cos := 0` (reflection-invariant). -/
theorem c5_witness :
    (firBandpass (fun x => x) (fun _ => 0) 3 5 15 250 101).getD 3 0
      = (firBandpass (fun x => x) (fun _ => 0) 3 5 15 250 101).getD
          ((firBandpass (fun x => x) (fun _ => 0) 3 5 15 250 101).length - 1 - 3) 0 :=
  c5_kernel_symmetric (fun x => x) (fun _ => 0) 3 5 15 250 101 3
    (fun x => rfl) (fun x => rfl) (by simp [firBandpass_length])

/-- C6 (counterexample): at `meanRR = 200 > 0` the computed
`bpm = round(60/200) = 0`, and the classifier reports "no reliable
heartbeats" instead of assigning the `bpm < 50` bradycardia category the
claim's threshold table demands. -/
theorem c6_bpm_zero_counterexample :
    (0 : ℚ) < 200 ∧
      jsRound ((60 : ℚ) / 200) = 0 ∧
      (interpretFindings [] 200 0 0 0 [] 250).out.headD Finding.noBeats
          = Finding.noBeats ∧
      Finding.sigBrady (jsRound ((60 : ℚ) / 200))
          ∉ (interpretFindings [] 200 0 0 0 [] 250).out :=
  ⟨by norm_num, by with_unfolding_all rfl, by with_unfolding_all rfl,
    of_decide_eq_true (by with_unfolding_all rfl)⟩

/-- C6 (amended): for every `meanRR > 0` the classifier computes
`bpm = round(60/meanRR)`, its first finding is the heart-rate finding for
that bpm, exactly one heart-rate finding is reported, and whenever
`bpm ≠ 0` the category follows the claim's threshold table exactly; when
`bpm = 0` (which happens for `meanRR > 120` even though `meanRR > 0`) the
classifier instead reports that no reliable heartbeats were detected — as it
also does when `meanRR = 0`. -/
theorem c6_hr_classification (rr : List ℚ) (meanRR s r p : ℚ) (pk : List ℤ)
    (fs : ℚ) (h : 0 < meanRR) :
    (interpretFindings rr meanRR s r p pk fs).bpm = jsRound (60 / meanRR) ∧
      (interpretFindings rr meanRR s r p pk fs).out.headD Finding.noBeats
          = hrCategory (jsRound (60 / meanRR)) ∧
      (interpretFindings rr meanRR s r p pk fs).out.countP isHRFinding = 1 ∧
      (jsRound (60 / meanRR) ≠ 0 →
        hrCategory (jsRound (60 / meanRR)) = specHRCategory (jsRound (60 / meanRR))) ∧
      (jsRound (60 / meanRR) = 0 →
        hrCategory (jsRound (60 / meanRR)) = Finding.noBeats) := by
  have hne : meanRR ≠ 0 := ne_of_gt h
  refine ⟨?_, ?_, countP_isHRFinding rr meanRR s r p pk fs, ?_, ?_⟩
  · simp [interpretFindings, hne]
  · simp [interpretFindings, hne]
  · intro hb
    unfold hrCategory specHRCategory
    rw [if_neg hb]
  · intro hb
    unfold hrCategory
    rw [if_pos hb]

/-- C6 (witness): the amended theorem at `meanRR = 1` (bpm 60, normal). -/
theorem c6_witness :
    (interpretFindings [] 1 0 0 0 [] 250).bpm = jsRound (60 / 1) ∧
      (interpretFindings [] 1 0 0 0 [] 250).out.headD Finding.noBeats
          = hrCategory (jsRound (60 / 1)) ∧
      (interpretFindings [] 1 0 0 0 [] 250).out.countP isHRFinding = 1 ∧
      (jsRound ((60 : ℚ) / 1) ≠ 0 →
        hrCategory (jsRound (60 / 1)) = specHRCategory (jsRound (60 / 1))) ∧
      (jsRound ((60 : ℚ) / 1) = 0 →
        hrCategory (jsRound (60 / 1)) = Finding.noBeats) :=
  c6_hr_classification [] 1 0 0 0 [] 250 (by norm_num)

/-- C7: the classifier counts how many of the three rules `SDNN > 0.12`,
`RMSSD > 0.1`, `pNN50 > 0.20` hold, and reports likely AFib exactly when at
least two hold, possible AFib exactly when exactly one holds, and no strong
AFib signature exactly when none holds. -/
theorem c7_afib_rules (rr : List ℚ) (meanRR s r p : ℚ) (pk : List ℤ) (fs : ℚ) :
    afCountOf s r p
        = ((if (0.12 : ℚ) < s then 1 else 0) + (if (0.1 : ℚ) < r then 1 else 0)
            + (if (0.20 : ℚ) < p then 1 else 0)) ∧
      (Finding.likelyAFib ∈ (interpretFindings rr meanRR s r p pk fs).out
          ↔ 2 ≤ afCountOf s r p) ∧
      (Finding.possibleAFib ∈ (interpretFindings rr meanRR s r p pk fs).out
          ↔ afCountOf s r p = 1) ∧
      (Finding.noAFibSignature ∈ (interpretFindings rr meanRR s r p pk fs).out
          ↔ afCountOf s r p = 0) := by
  refine ⟨?_, ?_, ?_, ?_⟩
  · unfold afCountOf
    by_cases ha : (0.12 : ℚ) < s <;> by_cases hb : (0.1 : ℚ) < r <;>
      by_cases hc : (0.20 : ℚ) < p <;> simp [ha, hb, hc]
  · rw [af_mem_out rr meanRR s r p pk fs _ (Or.inl rfl)]
    exact afFinding_eq_likely s r p
  · rw [af_mem_out rr meanRR s r p pk fs _ (Or.inr (Or.inl rfl))]
    exact afFinding_eq_possible s r p
  · rw [af_mem_out rr meanRR s r p pk fs _ (Or.inr (Or.inr rfl))]
    exact afFinding_eq_none s r p

/-- C8: the classifier flags interior RR index `i` exactly when
`rr[i] < 0.8*rr[i-1]` and `rr[i+1] > 1.15*rr[i-1]`, counts as long pauses
exactly the RR intervals strictly greater than 3 s, and on the sequence
`[0.8, 0.8, 0.5, 1.0, 0.8]` flags exactly index 2. -/
theorem c8_pvc_pause :
    (∀ (rr : List ℚ) (i : ℕ),
        i ∈ pvcIndicesOf rr ↔
          1 ≤ i ∧ i ≤ rr.length - 2 ∧
            rr.getD i 0 < 0.8 * rr.getD (i - 1) 0 ∧
            1.15 * rr.getD (i - 1) 0 < rr.getD (i + 1) 0) ∧
      (∀ (rr : List ℚ) (meanRR s r p : ℚ) (pk : List ℤ) (fs : ℚ),
        (interpretFindings rr meanRR s r p pk fs).longPauses
          = rr.countP (fun x => decide ((3 : ℚ) < x))) ∧
      pvcIndicesOf [0.8, 0.8, 0.5, 1, 0.8] = [2] := by
  refine ⟨?_, ?_, by with_unfolding_all rfl⟩
  · intro rr i
    unfold pvcIndicesOf
    by_cases h3 : 3 ≤ rr.length
    · rw [if_pos h3]
      simp only [List.mem_filter, List.mem_range, decide_eq_true_eq]
      constructor
      · rintro ⟨-, h1, h2, hv⟩
        exact ⟨h1, by omega, hv⟩
      · rintro ⟨h1, h2, hv⟩
        exact ⟨by omega, h1, by omega, hv⟩
    · rw [if_neg h3]
      constructor
      · intro h
        simp at h
      · rintro ⟨h1, h2, -⟩
        exfalso
        omega
  · intro rr meanRR s r p pk fs
    simp [interpretFindings, List.countP_eq_length_filter]

/-- C9: convolving any buffer with a kernel that is zero everywhere except a
1 at its center tap returns the buffer unchanged, element for element. -/
theorem c9_convolve_delta (signal kernel : List ℚ)
    (hodd : kernel.length % 2 = 1)
    (hzero : ∀ j < kernel.length, j ≠ kernel.length / 2 → kernel.getD j 0 = 0)
    (hone : kernel.getD (kernel.length / 2) 0 = 1) :
    convolve signal kernel = signal := by
  have hm : 0 < kernel.length := by omega
  have hc : kernel.length / 2 < kernel.length := Nat.div_lt_self hm (by omega)
  conv_rhs => rw [← map_getD_range_eq_self signal]
  have hlen : (convolve signal kernel).length = signal.length :=
    convolve_length signal kernel
  apply List.ext_getElem (by rw [hlen]; simp)
  intro i h1 h2
  have hi : i < signal.length := by rwa [hlen] at h1
  have hgi : (convolve signal kernel)[i] = (convolve signal kernel).getD i 0 := by
    rw [List.getD_eq_getElem?_getD, List.getElem?_eq_getElem h1]
    rfl
  rw [hgi, convolve_getD_sum signal kernel i hi,
    sum_map_range_single _ _ (kernel.length / 2) hc]
  · have hidx : (i : ℤ) - ((kernel.length / 2 : ℕ) : ℤ) + ((kernel.length / 2 : ℕ) : ℤ)
        = (i : ℤ) := by ring
    rw [hidx]
    have hcond : (0 : ℤ) ≤ (i : ℤ) ∧ (i : ℤ) < (signal.length : ℤ) :=
      ⟨Int.ofNat_nonneg i, by exact_mod_cast hi⟩
    rw [if_pos hcond, hone, mul_one]
    simp only [Int.toNat_natCast, List.getElem_map, List.getElem_range]
  · intro j hj hne
    rw [hzero j hj hne, mul_zero]
    exact ite_self 0

/-- C9 (witness): convolving `[5, 7]` with the delta kernel `[0, 1, 0]`. -/
theorem c9_witness :
    ([0, 1, 0] : List ℚ).length % 2 = 1 ∧
      (∀ j < ([0, 1, 0] : List ℚ).length,
        j ≠ ([0, 1, 0] : List ℚ).length / 2 → ([0, 1, 0] : List ℚ).getD j 0 = 0) ∧
      ([0, 1, 0] : List ℚ).getD (([0, 1, 0] : List ℚ).length / 2) 0 = 1 ∧
      convolve [5, 7] [0, 1, 0] = [5, 7] := by
  have h1 : ([0, 1, 0] : List ℚ).length % 2 = 1 := by with_unfolding_all rfl
  have h2 : ∀ j < ([0, 1, 0] : List ℚ).length,
      j ≠ ([0, 1, 0] : List ℚ).length / 2 → ([0, 1, 0] : List ℚ).getD j 0 = 0 :=
    of_decide_eq_true (by with_unfolding_all rfl)
  have h3 : ([0, 1, 0] : List ℚ).getD (([0, 1, 0] : List ℚ).length / 2) 0 = 1 := by
    with_unfolding_all rfl
  exact ⟨h1, h2, h3, c9_convolve_delta [5, 7] [0, 1, 0] h1 h2 h3⟩

/-- C10: the pipeline is deterministic: two runs on identical inputs give
identical filtered and envelope buffers, Peak Index Set, RR intervals, HRV
metrics and Finding Record — every stage is a pure function of its inputs,
with no hidden state between runs. -/
theorem c10_deterministic (sin cos : ℚ → ℚ) (pi : ℚ) (sqrt : ℚ → ℚ)
    (raw1 : List ℚ) (fs1 : ℚ) (raw2 : List ℚ) (fs2 : ℚ)
    (hraw : raw1 = raw2) (hfs : fs1 = fs2) :
    (runPipeline sin cos pi sqrt raw1 fs1).1.filtered
        = (runPipeline sin cos pi sqrt raw2 fs2).1.filtered ∧
      (runPipeline sin cos pi sqrt raw1 fs1).1.integrated
        = (runPipeline sin cos pi sqrt raw2 fs2).1.integrated ∧
      (runPipeline sin cos pi sqrt raw1 fs1).1.peaks
        = (runPipeline sin cos pi sqrt raw2 fs2).1.peaks ∧
      (runPipeline sin cos pi sqrt raw1 fs1).1.rrsec
        = (runPipeline sin cos pi sqrt raw2 fs2).1.rrsec ∧
      (runPipeline sin cos pi sqrt raw1 fs1).1.meanRR
        = (runPipeline sin cos pi sqrt raw2 fs2).1.meanRR ∧
      (runPipeline sin cos pi sqrt raw1 fs1).1.sdnn
        = (runPipeline sin cos pi sqrt raw2 fs2).1.sdnn ∧
      (runPipeline sin cos pi sqrt raw1 fs1).1.rmssd
        = (runPipeline sin cos pi sqrt raw2 fs2).1.rmssd ∧
      (runPipeline sin cos pi sqrt raw1 fs1).1.pnn50
        = (runPipeline sin cos pi sqrt raw2 fs2).1.pnn50 ∧
      (runPipeline sin cos pi sqrt raw1 fs1).2
        = (runPipeline sin cos pi sqrt raw2 fs2).2 ∧
      runPipeline sin cos pi sqrt raw1 fs1 = runPipeline sin cos pi sqrt raw2 fs2 := by
  subst hraw
  subst hfs
  exact ⟨rfl, rfl, rfl, rfl, rfl, rfl, rfl, rfl, rfl, rfl⟩

/-- C10 (witness): two identical concrete runs coincide. -/
theorem c10_witness :
    (runPipeline (fun _ => 0) (fun _ => 0) 3 (fun x => x) [1, 2] 250).1.filtered
        = (runPipeline (fun _ => 0) (fun _ => 0) 3 (fun x => x) [1, 2] 250).1.filtered ∧
      (runPipeline (fun _ => 0) (fun _ => 0) 3 (fun x => x) [1, 2] 250).1.integrated
        = (runPipeline (fun _ => 0) (fun _ => 0) 3 (fun x => x) [1, 2] 250).1.integrated ∧
      (runPipeline (fun _ => 0) (fun _ => 0) 3 (fun x => x) [1, 2] 250).1.peaks
        = (runPipeline (fun _ => 0) (fun _ => 0) 3 (fun x => x) [1, 2] 250).1.peaks ∧
      (runPipeline (fun _ => 0) (fun _ => 0) 3 (fun x => x) [1, 2] 250).1.rrsec
        = (runPipeline (fun _ => 0) (fun _ => 0) 3 (fun x => x) [1, 2] 250).1.rrsec ∧
      (runPipeline (fun _ => 0) (fun _ => 0) 3 (fun x => x) [1, 2] 250).1.meanRR
        = (runPipeline (fun _ => 0) (fun _ => 0) 3 (fun x => x) [1, 2] 250).1.meanRR ∧
      (runPipeline (fun _ => 0) (fun _ => 0) 3 (fun x => x) [1, 2] 250).1.sdnn
        = (runPipeline (fun _ => 0) (fun _ => 0) 3 (fun x => x) [1, 2] 250).1.sdnn ∧
      (runPipeline (fun _ => 0) (fun _ => 0) 3 (fun x => x) [1, 2] 250).1.rmssd
        = (runPipeline (fun _ => 0) (fun _ => 0) 3 (fun x => x) [1, 2] 250).1.rmssd ∧
      (runPipeline (fun _ => 0) (fun _ => 0) 3 (fun x => x) [1, 2] 250).1.pnn50
        = (runPipeline (fun _ => 0) (fun _ => 0) 3 (fun x => x) [1, 2] 250).1.pnn50 ∧
      (runPipeline (fun _ => 0) (fun _ => 0) 3 (fun x => x) [1, 2] 250).2
        = (runPipeline (fun _ => 0) (fun _ => 0) 3 (fun x => x) [1, 2] 250).2 ∧
      runPipeline (fun _ => 0) (fun _ => 0) 3 (fun x => x) [1, 2] 250
        = runPipeline (fun _ => 0) (fun _ => 0) 3 (fun x => x) [1, 2] 250 :=
  c10_deterministic (fun _ => 0) (fun _ => 0) 3 (fun x => x) [1, 2] 250 [1, 2] 250 rfl rfl
